import Mathlib

/-!
Verification of the anomaly-modding-tool core against its specification.

The development shallowly embeds the two core subsystems:
* `src/backup.rs` — the transactional directory-merge engine
  (`BasicTransaction`, `ComplexTransaction`, `SafeTransaction`);
* `src/addonlist.rs` — addon source resolution (`GithubLink`), the
  per-session `DownloadCache`, the addon folder locator
  (`Addons::find_addons` / `Addons::install`), and the load order
  (`LoadOrder::change_position`, `LoadOrder::to_modorg_modlist`).

A filesystem is modelled as a finite map from paths (lists of components)
to file contents.  Fallible OS calls are modelled with explicit
fault-injection oracles (an `Env`), so that both the success paths and the
failure paths of the Rust code are represented.
-/

/-- A filesystem path, as a list of components (`PathBuf` in the source). -/
abbrev FPath := List String

/-- A filesystem: a finite map from file paths to file contents.
Directories are implicit (they exist exactly when some file lies under
them), matching how the Rust code only ever enumerates files. -/
abbrev Fsys := Finmap (fun _ : FPath => String)

/-- Errors produced by the transaction engine.  The Rust code uses
`anyhow` string errors built with `bail!`; each `bail!` format string of
`src/backup.rs` is represented by a constructor so the error structure is
visible.  `msg` stands for any other error value (an OS error, an inner
transaction's own failure, a `fs_extra` error). -/
inductive TxError where
  /-- An opaque error (OS error, inner failure, `fs_extra` failure...). -/
  | msg (s : String)
  /-- Produced by `bail!("Fail, but reversed successfully: {}", r)` in
  `SafeTransaction::run`: apply failed, rollback succeeded. -/
  | installFailedButReverted (orig : TxError)
  /-- Produced by `bail!("Fail: {}, and you're fucked: {}", r, e)` in
  `SafeTransaction::run`: apply failed and rollback failed too. -/
  | installFailedAndUnrecoverable (orig rollback : TxError)
  /-- Produced by `bail!("Can't remove new files: {}", e)` in
  `SafeTransaction::reverse`. -/
  | cantRemoveNewFiles (os : TxError)
deriving DecidableEq

/-- Model of `fs_extra::dir::copy` with `overwrite = true`,
`content_only = true`, `copy_inside = true`: every file of `src` is
written over `dest` (left-biased union); files of `dest` not in `src`
are kept. -/
def dirCopyOver (src dest : Fsys) : Fsys := src ∪ dest

/-- Model of `BasicTransaction` (`DirectorySource` in the spec): it owns a
directory tree, represented directly as the finite map from the
tree's file paths, relative to its root, to their contents. -/
structure BasicTransaction where
  files : Fsys

/-- Model of `BasicTransaction::relative_file_paths`: walking the owned
tree and collecting every file path relative to the tree's root yields
exactly the domain of the tree. -/
def BasicTransaction.relative_file_paths (tr : BasicTransaction) : Finset FPath :=
  tr.files.keys

/-- Model of `<BasicTransaction as Transaction>::run`: `fs_extra` copies
the whole tree over `root_dir` (overwrite-merge). -/
def BasicTransaction.run (tr : BasicTransaction) (root_dir : Fsys) : Fsys :=
  dirCopyOver tr.files root_dir

/-- A member of a `ComplexTransaction` (`Box<dyn Transaction>` in the
source): an arbitrary transaction, modelled by its effect on the
filesystem under the destination root.  `run` returns the error, if any,
together with the filesystem as left behind (a failing run may have
partially written). -/
structure MemberTx where
  run : Fsys → Option TxError × Fsys

/-- Model of `<ComplexTransaction as Transaction>::run`: run every part
in list order against the same root; `?` aborts at the first error,
leaving the writes of the earlier parts (and of the failing part) in
place. -/
def complexRun : List MemberTx → Fsys → Option TxError × Fsys
  | [], root => (none, root)
  | t :: rest, root =>
    match t.run root with
    | (some e, root') => (some e, root')
    | (none, root') => complexRun rest root'

/-- Fault-injection environment for `SafeTransaction`: which OS calls
fail during backup and rollback.  `openErr p` is a failure of
`File::open`/`create`/`copy` for path `p` during the backup phase other
than `NotFound`; `removeErr p` is a failure of `remove_file p` other than
`NotFound` during rollback; `copyBackErr` is a failure of the
`fs_extra::dir::copy` restoring the backup. -/
structure Env where
  openErr : FPath → Option TxError
  removeErr : FPath → Option TxError
  copyBackErr : Option TxError

/-- The inner transaction guarded by a `SafeTransaction` (any `T:
Transaction`): its `relative_file_paths` (iterated in some order) and its
`run` effect. -/
structure InnerTx where
  paths : List FPath
  run : Fsys → Option TxError × Fsys

/-- The mutable state a `SafeTransaction` acts on: the destination root
tree and the backup directory tree. -/
structure GuardState where
  root : Fsys
  backup : Fsys
deriving DecidableEq

/-- Model of `SafeTransaction::backup`: for every relative path, open the
file under the destination root; `NotFound` is skipped, any other error
aborts, otherwise the file is copied into the backup directory. -/
def backupPhase (env : Env) (root : Fsys) : List FPath → Fsys → Option TxError × Fsys
  | [], backup => (none, backup)
  | p :: rest, backup =>
    match env.openErr p with
    | some e => (some e, backup)
    | none =>
      match root.lookup p with
      | none => backupPhase env root rest backup
      | some c => backupPhase env root rest (backup.insert p c)

/-- The first loop of `SafeTransaction::reverse`: `remove_file` each
relative path under the destination root.  `NotFound` counts as success;
any other error aborts with `Can't remove new files`. -/
def removeAll (env : Env) : List FPath → Fsys → Option TxError × Fsys
  | [], root => (none, root)
  | p :: rest, root =>
    match env.removeErr p with
    | some e => (some (.cantRemoveNewFiles e), root)
    | none => removeAll env rest (root.erase p)

/-- Erasing a list of paths from a filesystem (the effect of a fully
successful `removeAll`). -/
def eraseAll (root : Fsys) (paths : List FPath) : Fsys :=
  paths.foldl (fun f p => f.erase p) root

/-- Model of `SafeTransaction::reverse`: delete every relative path under
the destination root, then copy the backup tree back over it.  On failure
the partially-modified root is left behind. -/
def reverse (env : Env) (paths : List FPath) (backupDir root : Fsys) :
    Option TxError × Fsys :=
  match removeAll env paths root with
  | (some e, root') => (some e, root')
  | (none, root') =>
    match env.copyBackErr with
    | some e => (some e, root')
    | none => (none, dirCopyOver backupDir root')

/-- Model of `<SafeTransaction as Transaction>::run`: back up, run the
inner transaction, and on inner failure roll back; the rollback outcome
decides between `installFailedButReverted` and
`installFailedAndUnrecoverable`. -/
def safeRun (env : Env) (tx : InnerTx) (st : GuardState) :
    Option TxError × GuardState :=
  match backupPhase env st.root tx.paths st.backup with
  | (some e, b) => (some e, ⟨st.root, b⟩)
  | (none, b) =>
    match tx.run st.root with
    | (none, root') => (none, ⟨root', b⟩)
    | (some r, root') =>
      match reverse env tx.paths b root' with
      | (none, root'') => (some (.installFailedButReverted r), ⟨root'', b⟩)
      | (some e, root'') => (some (.installFailedAndUnrecoverable r e), ⟨root'', b⟩)

/-- Model of `impl Drop for SafeTransaction`: when the guard value goes
out of scope, `remove_dir_all(&self.backup_dir)` deletes the backup
directory (best-effort; the success case is modelled). This runs on every
exit path, including after an unrecoverable failure. -/
def dropGuard (st : GuardState) : GuardState :=
  ⟨st.root, ∅⟩

/-- C3: for every directory tree given to a `BasicTransaction`
(`DirectorySource`), `relative_file_paths` equals exactly the set of file
paths that exist under the destination root after `run` completes against
an initially empty destination. -/
theorem basicTransaction_relative_paths_roundtrip (tr : BasicTransaction) :
    (tr.run ∅).keys = tr.relative_file_paths := by
  simp [BasicTransaction.run, BasicTransaction.relative_file_paths, dirCopyOver,
    Finmap.union_empty]

/-- C10: `ComplexTransaction::run` invokes each member in list order and
returns the first member's error without invoking any later member: if
the members before `f` all succeed (taking the root from `s` to `s'`) and
`f` fails with `e` leaving `s''`, the whole composite returns `e` with the
filesystem `s''` — the earlier members' writes are kept, and the members
after `f` do not affect the outcome at all. -/
theorem complexTransaction_first_error
    (pre : List MemberTx) (f : MemberTx) (post : List MemberTx)
    (s s' s'' : Fsys) (e : TxError)
    (hpre : complexRun pre s = (none, s'))
    (hf : f.run s' = (some e, s'')) :
    complexRun (pre ++ f :: post) s = (some e, s'') := by
  induction pre generalizing s with
  | nil =>
    simp only [complexRun] at hpre
    cases hpre
    simp [complexRun, hf]
  | cons t rest ih =>
    simp only [complexRun] at hpre ⊢
    cases htr : t.run s with
    | mk oe root' =>
      rw [htr] at hpre
      cases oe with
      | some e' => simp at hpre
      | none => exact ih root' hpre

/-- A concrete member transaction that always succeeds, writing one
file. -/
def memberWriteA : MemberTx :=
  ⟨fun fs => (none, fs.insert ["a"] "A")⟩

/-- A concrete member transaction that always fails after writing one
file. -/
def memberFailB : MemberTx :=
  ⟨fun fs => (some (.msg "boom"), fs.insert ["b"] "partial")⟩

/-- A concrete member transaction that writes one file; used as a member
placed after a failing one. -/
def memberWriteC : MemberTx :=
  ⟨fun fs => (none, fs.insert ["c"] "C")⟩

/-- Witness for C10 at a concrete composite: one succeeding member, then
a failing one, then a member that is never reached. -/
theorem complexTransaction_first_error_witness :
    complexRun [memberWriteA, memberFailB, memberWriteC] ∅ =
      (some (.msg "boom"), ((∅ : Fsys).insert ["a"] "A").insert ["b"] "partial") := by
  have h := complexTransaction_first_error [memberWriteA] memberFailB [memberWriteC]
    ∅ ((∅ : Fsys).insert ["a"] "A") (((∅ : Fsys).insert ["a"] "A").insert ["b"] "partial")
    (.msg "boom") (by decide) (by decide)
  simpa using h

/-- A fully successful `removeAll` erases exactly the listed paths. -/
theorem removeAll_ok (env : Env) (paths : List FPath) (root : Fsys)
    (h : ∀ p ∈ paths, env.removeErr p = none) :
    removeAll env paths root = (none, eraseAll root paths) := by
  induction paths generalizing root with
  | nil => rfl
  | cons p rest ih =>
    have hp : env.removeErr p = none := h p (by simp)
    simp only [removeAll, hp, eraseAll, List.foldl_cons]
    exact ih _ (fun q hq => h q (by simp [hq]))

/-- C1: for every guarded transaction (`SafeTransaction`) whose backup
phase succeeded: if the inner apply fails, the rollback erases
`destination_root/path` for every path of `inner.relative_file_paths()`
(erasing an absent path is a no-op, so a path already absent counts as
success) and then copies the backup tree back over the destination root;
when this rollback runs without any injected fault the surfaced error is
`installFailedButReverted` carrying the original apply error, and the
final destination is the backup merged over the apply-result stripped of
all relative paths.  If instead the inner apply succeeds, the whole
transaction returns success. -/
theorem safeTransaction_reverts_on_failure
    (env : Env) (tx : InnerTx) (st : GuardState) (b : Fsys)
    (hb : backupPhase env st.root tx.paths st.backup = (none, b)) :
    (∀ r root', tx.run st.root = (some r, root') →
        (∀ p ∈ tx.paths, env.removeErr p = none) →
        env.copyBackErr = none →
        safeRun env tx st =
          (some (.installFailedButReverted r),
            ⟨dirCopyOver b (eraseAll root' tx.paths), b⟩)) ∧
    (∀ root', tx.run st.root = (none, root') →
        safeRun env tx st = (none, ⟨root', b⟩)) := by
  constructor
  · intro r root' ha hrm hcb
    simp only [safeRun, hb, ha, reverse, removeAll_ok env tx.paths root' hrm, hcb]
  · intro root' ha
    simp only [safeRun, hb, ha]

/-- A fault-free environment: every OS call succeeds. -/
def envOk : Env := ⟨fun _ => none, fun _ => none, none⟩

/-- An environment where `remove_file` fails (with an error other than
`NotFound`) on every path, so rollback cannot delete the new files. -/
def envRemoveLocked : Env := ⟨fun _ => none, fun _ => some (.msg "locked"), none⟩

/-- A concrete inner transaction over one relative path that always
fails after partially writing its file. -/
def txBoom : InnerTx := ⟨[["f"]], fun fs => (some (.msg "boom"), fs.insert ["f"] "junk")⟩

/-- A concrete guard state: the destination root already holds an old
version of the file, and the backup directory is empty. -/
def stExample : GuardState := ⟨(∅ : Fsys).insert ["f"] "old", ∅⟩

/-- Witness for C1: on the concrete failing transaction the guarded run
returns `installFailedButReverted` and the destination root is the backup
copied over the cleaned-up tree. -/
theorem safeTransaction_reverts_on_failure_witness :
    safeRun envOk txBoom stExample =
      (some (.installFailedButReverted (.msg "boom")),
        ⟨dirCopyOver ((∅ : Fsys).insert ["f"] "old")
            (eraseAll (stExample.root.insert ["f"] "junk") [["f"]]),
          (∅ : Fsys).insert ["f"] "old"⟩) :=
  (safeTransaction_reverts_on_failure envOk txBoom stExample
      ((∅ : Fsys).insert ["f"] "old") (by decide)).1
    (.msg "boom") (stExample.root.insert ["f"] "junk")
    (by decide) (by decide) (by decide)

/-- C2 (amended): when the inner apply fails and the rollback also
fails, the surfaced error is `installFailedAndUnrecoverable` carrying
both the original apply error and the rollback error; however, the
`Drop` impl of `SafeTransaction` still deletes the backup directory
(best-effort) when the guard ends, so the backup does not survive. -/
theorem safeTransaction_unrecoverable_keeps_both_errors
    (env : Env) (tx : InnerTx) (st : GuardState) (b root' root'' : Fsys)
    (r e : TxError)
    (hb : backupPhase env st.root tx.paths st.backup = (none, b))
    (ha : tx.run st.root = (some r, root'))
    (hr : reverse env tx.paths b root' = (some e, root'')) :
    safeRun env tx st = (some (.installFailedAndUnrecoverable r e), ⟨root'', b⟩) ∧
    (dropGuard ⟨root'', b⟩).backup = ∅ := by
  refine ⟨?_, rfl⟩
  simp only [safeRun, hb, ha, hr]

/-- Witness for C2 (amended) at a concrete instance: apply fails, the
rollback's `remove_file` fails, both errors are carried. -/
theorem safeTransaction_unrecoverable_witness :
    safeRun envRemoveLocked txBoom stExample =
      (some (.installFailedAndUnrecoverable (.msg "boom")
          (.cantRemoveNewFiles (.msg "locked"))),
        ⟨stExample.root.insert ["f"] "junk", (∅ : Fsys).insert ["f"] "old"⟩) ∧
    (dropGuard ⟨stExample.root.insert ["f"] "junk",
        (∅ : Fsys).insert ["f"] "old"⟩).backup = ∅ :=
  safeTransaction_unrecoverable_keeps_both_errors envRemoveLocked txBoom stExample
    ((∅ : Fsys).insert ["f"] "old") (stExample.root.insert ["f"] "junk")
    (stExample.root.insert ["f"] "junk")
    (.msg "boom") (.cantRemoveNewFiles (.msg "locked"))
    (by decide) (by decide) (by decide)

/-- Counterexample for C2 as stated: after an unrecoverable failure the
backup directory is nonempty, yet the guard's `Drop` impl
(`remove_dir_all(&self.backup_dir)`) deletes it when the guard ends, so
it does not survive for manual recovery. -/
theorem safeTransaction_backup_deleted_on_drop_cex :
    safeRun envRemoveLocked txBoom stExample =
      (some (.installFailedAndUnrecoverable (.msg "boom")
          (.cantRemoveNewFiles (.msg "locked"))),
        ⟨stExample.root.insert ["f"] "junk", (∅ : Fsys).insert ["f"] "old"⟩) ∧
    ((∅ : Fsys).insert ["f"] "old") ≠ (∅ : Fsys) ∧
    (dropGuard ⟨stExample.root.insert ["f"] "junk",
        (∅ : Fsys).insert ["f"] "old"⟩).backup = (∅ : Fsys) := by
  decide

/-- The fixed header line of `LoadOrder::to_modorg_modlist`
(`LOADORDER_HEADER` in the source). -/
def LOADORDER_HEADER : String :=
  "# This file was automatically generated by Anomaly Modding Tool. Sorry if it broke lol.\n"

/-- Outcome of `LoadOrder::change_position`: the Rust function returns
`Err(anyhow "No such element")` when the addon is absent, and
`Vec::insert` panics when its index exceeds the vector length after the
removal; otherwise it returns `Ok` having reordered the vector in
place. -/
inductive CPOutcome where
  | unknownAddon
  | panicked
  | ok (l : List String)
deriving DecidableEq

/-- Model of `LoadOrder::change_position`: find the first position of
`addon` (else `No such element`), remove it there, and reinsert at
`pos`.  The source's `debug_assert!(pos <= self.0.len())` admits
`pos = len`, but `Vec::insert` panics whenever `pos` exceeds the length
of the vector after the removal. -/
def LoadOrder.change_position (l : List String) (addon : String) (pos : Nat) :
    CPOutcome :=
  match l.findIdx? (· == addon) with
  | none => .unknownAddon
  | some ix =>
    let l' := l.eraseIdx ix
    if pos ≤ l'.length then .ok (l'.insertIdx pos addon) else .panicked

/-- Model of `LoadOrder::to_modorg_modlist`: the header, one `+name\n`
line per enabled addon in list order, then one `-name\n` line per
registry key not contained in the order, in registry key order. -/
def LoadOrder.to_modorg_modlist (order : List String) (allKeys : List String) :
    String :=
  LOADORDER_HEADER ++
    String.join (order.map (fun s => "+" ++ s ++ "\n")) ++
    String.join ((allKeys.filter (fun k => !(order.contains k))).map
      (fun s => "-" ++ s ++ "\n"))

/-- C7: `change_position` does fail with the unknown-addon error when the
name is absent, but an index just beyond the reachable range is not
clamped: with order `["a"]`, moving `"a"` to index `1` panics inside
`Vec::insert` (after the removal the vector has length `0`), even though
the function's own `debug_assert!(pos <= self.0.len())` admits that
index. -/
theorem change_position_panics_instead_of_clamping :
    LoadOrder.change_position ["a"] "a" 1 = CPOutcome.panicked ∧
    LoadOrder.change_position ["a"] "missing" 0 = CPOutcome.unknownAddon := by
  decide

/-- Inserting at an index within the list is a permutation of consing. -/
theorem list_insertIdx_perm_cons {α : Type} (a : α) :
    ∀ (n : Nat) (l : List α), n ≤ l.length → (l.insertIdx n a).Perm (a :: l)
  | 0, l, _ => by simp
  | n + 1, [], h => by simp at h
  | n + 1, c :: rest, h => by
    rw [List.insertIdx_succ_cons]
    exact ((list_insertIdx_perm_cons a n rest (Nat.le_of_succ_le_succ h)).cons c).trans
      (List.Perm.swap a c rest)

/-- A list is a permutation of its `i`-th element consed onto the list
with index `i` erased. -/
theorem list_perm_cons_eraseIdx {α : Type} :
    ∀ (l : List α) (i : Nat) (h : i < l.length), l.Perm (l[i] :: l.eraseIdx i)
  | c :: rest, 0, _ => by simp
  | c :: rest, i + 1, h => by
    have hi : i < rest.length := by simpa using h
    have step := (list_perm_cons_eraseIdx rest i hi).cons c
    simp only [List.getElem_cons_succ, List.eraseIdx_cons_succ]
    exact step.trans (List.Perm.swap rest[i] c (rest.eraseIdx i))

/-- C8: for every load order containing `name` and every in-range index,
`change_position` succeeds and the result is a permutation of the input
with `name` stored at the requested index and all other entries in their
original relative order (removing the moved element from both lists
leaves the same list). -/
theorem change_position_is_reordering
    (l : List String) (name : String) (pos : Nat)
    (hmem : name ∈ l) (hpos : pos < l.length) :
    ∃ r ix, l.findIdx? (· == name) = some ix ∧
      LoadOrder.change_position l name pos = .ok r ∧
      r.Perm l ∧ r[pos]? = some name ∧
      r.eraseIdx pos = l.eraseIdx ix := by
  have hex : ∃ x ∈ l, (x == name) = true := ⟨name, hmem, by simp⟩
  have hsome : (l.findIdx? (· == name)).isSome := by
    rw [List.findIdx?_isSome]
    simpa using hex
  obtain ⟨ix, hfind⟩ := Option.isSome_iff_exists.mp hsome
  have hlt : ix < l.length := by
    have := List.findIdx?_eq_some_iff_findIdx_eq.mp hfind
    omega
  have hgetb : (l[ix] == name) = true := by
    have := List.findIdx?_eq_some_iff_getElem.mp hfind
    exact this.2.1
  have hget : l[ix] = name := by simpa using hgetb
  have hlen' : (l.eraseIdx ix).length = l.length - 1 := by
    rw [List.length_eraseIdx]
    simp [hlt]
  have hple : pos ≤ (l.eraseIdx ix).length := by omega
  refine ⟨(l.eraseIdx ix).insertIdx pos name, ix, hfind, ?_, ?_, ?_, ?_⟩
  · simp only [LoadOrder.change_position, hfind]
    rw [if_pos hple]
  · refine (list_insertIdx_perm_cons name pos (l.eraseIdx ix) hple).trans ?_
    have := list_perm_cons_eraseIdx l ix hlt
    rw [hget] at this
    exact this.symm
  · have hlen'' : pos < ((l.eraseIdx ix).insertIdx pos name).length := by
      rw [List.length_insertIdx pos _ hple]
      omega
    rw [List.getElem?_eq_getElem hlen'']
    rw [List.getElem_insertIdx_self (l.eraseIdx ix) name pos hple]
  · exact List.eraseIdx_insertIdx pos (l.eraseIdx ix)

/-- Witness for C8: moving `"b"` to index `2` in `["a", "b", "c"]`. -/
theorem change_position_is_reordering_witness :
    ∃ r ix, ["a", "b", "c"].findIdx? (· == "b") = some ix ∧
      LoadOrder.change_position ["a", "b", "c"] "b" 2 = .ok r ∧
      r.Perm ["a", "b", "c"] ∧ r[2]? = some "b" ∧
      r.eraseIdx 2 = ["a", "b", "c"].eraseIdx ix :=
  change_position_is_reordering ["a", "b", "c"] "b" 2 (by decide) (by decide)

/-- C9: for every order whose names all exist in the registry (and with
the registry keys distinct, as `HashMap` keys are, and the order free of
duplicates, as the `LoadOrder` data-model invariant demands), the
rendered modlist is the header followed by one `+name` line per order
entry in list order, then one `-name` line per registry key absent from
the order in registry-key order; every registry name appears exactly once
across the two groups and never in both. -/
theorem to_modorg_modlist_groups
    (order reg : List String)
    (_hsub : ∀ n ∈ order, n ∈ reg)
    (ho : order.Nodup) (hr : reg.Nodup) :
    LoadOrder.to_modorg_modlist order reg =
      LOADORDER_HEADER ++
        String.join (order.map (fun s => "+" ++ s ++ "\n")) ++
        String.join ((reg.filter (fun k => !(order.contains k))).map
          (fun s => "-" ++ s ++ "\n")) ∧
    (∀ n ∈ reg,
      List.count n (order ++ reg.filter (fun k => !(order.contains k))) = 1) ∧
    (∀ n ∈ reg,
      ¬(n ∈ order ∧ n ∈ reg.filter (fun k => !(order.contains k)))) := by
  refine ⟨rfl, ?_, ?_⟩
  · intro n hn
    rw [List.count_append]
    by_cases hmem : n ∈ order
    · have h1 : List.count n order = 1 := List.count_eq_one_of_mem ho hmem
      have h0 : List.count n (reg.filter (fun k => !(order.contains k))) = 0 := by
        rw [List.count_eq_zero]
        intro hin
        have := (List.mem_filter.mp hin).2
        simp at this
        exact this hmem
      omega
    · have h0 : List.count n order = 0 := List.count_eq_zero_of_not_mem hmem
      have hin : n ∈ reg.filter (fun k => !(order.contains k)) := by
        rw [List.mem_filter]
        refine ⟨hn, ?_⟩
        simp [hmem]
      have h1 : List.count n (reg.filter (fun k => !(order.contains k))) = 1 :=
        List.count_eq_one_of_mem (hr.filter _) hin
      omega
  · intro n _ ⟨hmem, hin⟩
    have := (List.mem_filter.mp hin).2
    simp at this
    exact this hmem

/-- Witness for C9 at the spec's own example: order `[x, y]`, registry
`{x, y, z}`. -/
theorem to_modorg_modlist_groups_witness :
    LoadOrder.to_modorg_modlist ["x", "y"] ["x", "y", "z"] =
      LOADORDER_HEADER ++
        String.join (["x", "y"].map (fun s => "+" ++ s ++ "\n")) ++
        String.join ((["x", "y", "z"].filter
            (fun k => !(["x", "y"].contains k))).map
          (fun s => "-" ++ s ++ "\n")) ∧
    (∀ n ∈ ["x", "y", "z"],
      List.count n (["x", "y"] ++ ["x", "y", "z"].filter
        (fun k => !(["x", "y"].contains k))) = 1) ∧
    (∀ n ∈ ["x", "y", "z"],
      ¬(n ∈ ["x", "y"] ∧ n ∈ ["x", "y", "z"].filter
        (fun k => !(["x", "y"].contains k)))) :=
  to_modorg_modlist_groups ["x", "y"] ["x", "y", "z"]
    (by decide) (by decide) (by decide)

/-- Model of `ModdbLink` (`PortalLink` in the spec). -/
structure ModdbLink where
  addon_link : String
  updated : String
deriving DecidableEq

/-- Model of `GithubLink` (`VersionedRepo` in the spec). -/
structure GithubLink where
  repo : String
  tag : String
  filename : String
deriving DecidableEq

/-- Model of `UrlLink` (`DirectUrl` in the spec). -/
structure UrlLink where
  url : String
deriving DecidableEq

/-- Model of `AddonKey`: the tagged union over addon sources.  Equality
is structural, exactly as the derived `PartialEq`/`Eq`/`Hash` in the
source. -/
inductive AddonKey where
  | moddb (link : ModdbLink)
  | github (link : GithubLink)
  | url (link : UrlLink)
deriving DecidableEq

/-- Model of `tag.strip_prefix('v')` as used by
`GithubLink::get_download_url`: drop one leading `v` if present. -/
def stripV (s : String) : String :=
  match s.data with
  | 'v' :: rest => ⟨rest⟩
  | _ => s

/-- Replacement of every leftmost non-overlapping occurrence of `pat` by
`repl`, on character lists, with structural fuel (the fuel is the length
of the haystack, which suffices because each step consumes at least one
character).  This models Rust's `str::replace`. -/
def listReplace (pat repl : List Char) : Nat → List Char → List Char
  | 0, s => s
  | _, [] => []
  | fuel + 1, c :: rest =>
    if pat ≠ [] ∧ pat.isPrefixOf (c :: rest) then
      repl ++ listReplace pat repl fuel ((c :: rest).drop pat.length)
    else
      c :: listReplace pat repl fuel rest

/-- Model of Rust's `str::replace` on strings. -/
def strReplace (s pat repl : String) : String :=
  ⟨listReplace pat.data repl.data s.data.length s.data⟩

/-- The offline part of `GithubLink::fetch_tag`: when the tag is not the
sentinel `"latest"` the tag itself is returned without any request;
`none` marks the only case in which the source performs network I/O (a
HEAD request resolving the latest release). -/
def GithubLink.fetch_tag_offline (g : GithubLink) : Option String :=
  if g.tag = "latest" then none else some g.tag

/-- Model of `GithubLink::get_download_url` on the offline path: build
`https://github.com/<repo>/releases/download/<tag>/<filename>` where
`<filename>` is the template with `$VERSION` replaced by the tag
stripped of one leading `v`. -/
def GithubLink.get_download_url_offline (g : GithubLink) : Option String :=
  (g.fetch_tag_offline).map (fun tag =>
    let version := stripV tag
    let filename := strReplace g.filename "$VERSION" version
    "https://github.com/" ++ g.repo ++ "/releases/download/" ++ tag ++ "/" ++ filename)

/-- C5: for every `GithubLink` (`VersionedRepo`) whose tag is not
`"latest"`, resolution needs no I/O — the tag is returned as-is — and
the download URL is
`https://github.com/<repo>/releases/download/<tag>/<filename>` with
`<filename>` the template after substituting `$VERSION` by the tag
stripped of a leading `v`. -/
theorem githubLink_tagged_url (repo tag filename : String)
    (h : tag ≠ "latest") :
    GithubLink.fetch_tag_offline ⟨repo, tag, filename⟩ = some tag ∧
    GithubLink.get_download_url_offline ⟨repo, tag, filename⟩ =
      some ("https://github.com/" ++ repo ++ "/releases/download/" ++ tag ++ "/"
        ++ strReplace filename "$VERSION" (stripV tag)) := by
  constructor
  · simp [GithubLink.fetch_tag_offline, h]
  · simp [GithubLink.get_download_url_offline, GithubLink.fetch_tag_offline, h]

/-- Witness for C5 at the claim's concrete example: tag `v2.4.3`,
template `Pack-$VERSION.7z`, repo `org/name`. -/
theorem githubLink_tagged_url_witness :
    GithubLink.get_download_url_offline ⟨"org/name", "v2.4.3", "Pack-$VERSION.7z"⟩ =
      some "https://github.com/org/name/releases/download/v2.4.3/Pack-2.4.3.7z" := by
  have h := (githubLink_tagged_url "org/name" "v2.4.3" "Pack-$VERSION.7z"
    (by decide)).2
  rw [h]
  decide

/-- An unpacked temp directory handle (`TempDir`), abstracted to an
identifier. -/
abbrev Dir := Nat

/-- The map inside `DownloadCache`: association of addon keys to the
already fetched-and-unpacked directories.  Structural key equality, as
with the derived `Hash`/`Eq` on `AddonKey`. -/
abbrev Cache := List (AddonKey × Dir)

/-- Lookup in the cache under structural equality of `AddonKey`
(`HashMap::entry` in the source). -/
def cacheFind : Cache → AddonKey → Option Dir
  | [], _ => none
  | (k, d) :: rest, key => if k = key then some d else cacheFind rest key

/-- State of a `DownloadCache` session: the cache contents plus the
number of times the fetch-and-unpack collaborator
(`download_and_unpack`) has been invoked so far. -/
structure DlState where
  cache : Cache
  fetches : Nat
deriving DecidableEq

/-- Model of `DownloadCache::get_or_download`: on a hit, return the
stored directory without touching the collaborator; on a miss, invoke
the collaborator (`fetch` applied to the invocation counter; `none`
models a failed download or unpack, which `?` propagates before anything
is stored) and store the directory on success. -/
def get_or_download (fetch : Nat → Option Dir) (st : DlState) (key : AddonKey) :
    Option Dir × DlState :=
  match cacheFind st.cache key with
  | some d => (some d, st)
  | none =>
    match fetch st.fetches with
    | none => (none, ⟨st.cache, st.fetches + 1⟩)
    | some d => (some d, ⟨(key, d) :: st.cache, st.fetches + 1⟩)

/-- A sequence of `get_or_download` calls against one cache instance,
returning the per-call results and the final state. -/
def runCalls (fetch : Nat → Option Dir) :
    List AddonKey → DlState → List (Option Dir) × DlState
  | [], st => ([], st)
  | k :: ks, st =>
    let step := get_or_download fetch st k
    let restRun := runCalls fetch ks step.2
    (step.1 :: restRun.1, restRun.2)

/-- Whatever the cache already associates to a key is never changed by
later calls: `get_or_download` only adds bindings for absent keys. -/
theorem cacheFind_runCalls_mono (fetch : Nat → Option Dir) (ks : List AddonKey)
    (st : DlState) (k : AddonKey) (d : Dir)
    (h : cacheFind st.cache k = some d) :
    cacheFind (runCalls fetch ks st).2.cache k = some d := by
  induction ks generalizing st with
  | nil => simpa [runCalls]
  | cons k' rest ih =>
    simp only [runCalls]
    cases hc : cacheFind st.cache k' with
    | some d' =>
      simp only [get_or_download, hc]
      exact ih st h
    | none =>
      cases hf : fetch st.fetches with
      | none =>
        simp only [get_or_download, hc, hf]
        exact ih _ h
      | some d' =>
        simp only [get_or_download, hc, hf]
        apply ih
        have hne : k' ≠ k := by
          intro he
          rw [he, h] at hc
          cases hc
        simpa [cacheFind, hne] using h

/-- Erasing a key from a list's `Finset` of elements by filtering. -/
theorem list_toFinset_filter_ne {α : Type} [DecidableEq α]
    (L : List α) (k : α) :
    (L.filter (fun x => x ≠ k)).toFinset = L.toFinset.erase k := by
  ext x
  simp [List.mem_filter, Finset.mem_erase, and_comm]

/-- Card of inserting an element equals card of erasing it plus one. -/
theorem finset_card_insert_erase {α : Type} [DecidableEq α]
    (S : Finset α) (k : α) :
    (insert k S).card = (S.erase k).card + 1 := by
  by_cases h : k ∈ S
  · rw [Finset.insert_eq_self.mpr h]
    exact (Finset.card_erase_add_one h).symm
  · rw [Finset.erase_eq_of_not_mem h]
    exact Finset.card_insert_of_not_mem h

/-- When every collaborator invocation succeeds, a call sequence invokes
the collaborator exactly once per distinct key not already cached. -/
theorem runCalls_fetches (fetch : Nat → Option Dir)
    (hfetch : ∀ n, (fetch n).isSome) (ks : List AddonKey) (st : DlState) :
    (runCalls fetch ks st).2.fetches =
      st.fetches +
        ((ks.filter (fun k => (cacheFind st.cache k).isNone)).toFinset).card := by
  induction ks generalizing st with
  | nil => simp [runCalls]
  | cons k rest ih =>
    simp only [runCalls]
    cases hc : cacheFind st.cache k with
    | some d =>
      simp only [get_or_download, hc]
      rw [ih st]
      have : (rest.filter (fun x => (cacheFind st.cache x).isNone)) =
          ((k :: rest).filter (fun x => (cacheFind st.cache x).isNone)) := by
        simp [List.filter_cons, hc]
      rw [this]
    | none =>
      cases hf : fetch st.fetches with
      | none =>
        have := hfetch st.fetches
        rw [hf] at this
        cases this
      | some d =>
        simp only [get_or_download, hc, hf]
        rw [ih ⟨(k, d) :: st.cache, st.fetches + 1⟩]
        have hpred : (rest.filter
            (fun x => (cacheFind ((k, d) :: st.cache) x).isNone)) =
            (rest.filter (fun x => (cacheFind st.cache x).isNone)).filter
              (fun x => x ≠ k) := by
          rw [List.filter_filter]
          apply List.filter_congr
          intro x _
          by_cases hx : k = x
          · subst hx
            simp [cacheFind]
          · simp [cacheFind, hx, Ne.symm hx]
        have hhead : ((k :: rest).filter
            (fun x => (cacheFind st.cache x).isNone)) =
            k :: rest.filter (fun x => (cacheFind st.cache x).isNone) := by
          simp [List.filter_cons, hc]
        rw [hpred, hhead, list_toFinset_filter_ne]
        simp only [List.toFinset_cons]
        rw [finset_card_insert_erase]
        omega

/-- When every collaborator invocation succeeds, every call's result is
exactly the final cache's binding for its key. -/
theorem runCalls_results (fetch : Nat → Option Dir)
    (hfetch : ∀ n, (fetch n).isSome) (ks : List AddonKey) (st : DlState) :
    (runCalls fetch ks st).1 =
      ks.map (fun k => cacheFind (runCalls fetch ks st).2.cache k) := by
  induction ks generalizing st with
  | nil => simp [runCalls]
  | cons k rest ih =>
    simp only [runCalls, List.map_cons]
    cases hc : cacheFind st.cache k with
    | some d =>
      simp only [get_or_download, hc]
      rw [ih st]
      rw [cacheFind_runCalls_mono fetch rest st k d hc]
    | none =>
      cases hf : fetch st.fetches with
      | none =>
        have := hfetch st.fetches
        rw [hf] at this
        cases this
      | some d =>
        simp only [get_or_download, hc, hf]
        rw [ih ⟨(k, d) :: st.cache, st.fetches + 1⟩]
        rw [cacheFind_runCalls_mono fetch rest ⟨(k, d) :: st.cache, st.fetches + 1⟩
          k d (by simp [cacheFind])]

/-- When every collaborator invocation succeeds, every call returns a
directory (no call fails). -/
theorem runCalls_results_isSome (fetch : Nat → Option Dir)
    (hfetch : ∀ n, (fetch n).isSome) (ks : List AddonKey) (st : DlState) :
    ∀ r ∈ (runCalls fetch ks st).1, r.isSome := by
  induction ks generalizing st with
  | nil =>
    intro r hr
    simp [runCalls] at hr
  | cons k rest ih =>
    intro r hr
    simp only [runCalls, List.mem_cons] at hr
    rcases hr with h | h
    · subst h
      cases hc : cacheFind st.cache k with
      | some d => simp [get_or_download, hc]
      | none =>
        cases hf : fetch st.fetches with
        | none =>
          have := hfetch st.fetches
          rw [hf] at this
          cases this
        | some d => simp [get_or_download, hc, hf]
    · exact ih _ r h

/-- C4 (amended): starting from a fresh `DownloadCache`, as long as every
collaborator invocation succeeds, the fetch-and-unpack collaborator is
invoked exactly once per distinct key (so at most once per key under
structural `AddonKey` equality); every key requested during the session
ends up bound in the cache, every call's result is the final cache's
binding for its key, and any two calls with structurally equal keys
observe the same directory. -/
theorem downloadCache_at_most_once_per_key (fetch : Nat → Option Dir)
    (hfetch : ∀ n, (fetch n).isSome) (ks : List AddonKey) :
    (runCalls fetch ks ⟨[], 0⟩).2.fetches = ks.toFinset.card ∧
    (runCalls fetch ks ⟨[], 0⟩).1 =
      ks.map (fun k => cacheFind (runCalls fetch ks ⟨[], 0⟩).2.cache k) ∧
    (∀ k ∈ ks, (cacheFind (runCalls fetch ks ⟨[], 0⟩).2.cache k).isSome) ∧
    (∀ i j (hi : i < ks.length) (hj : j < ks.length), ks[i] = ks[j] →
      (runCalls fetch ks ⟨[], 0⟩).1[i]? = (runCalls fetch ks ⟨[], 0⟩).1[j]?) := by
  have hres := runCalls_results fetch hfetch ks ⟨[], 0⟩
  have hcount := runCalls_fetches fetch hfetch ks ⟨[], 0⟩
  have hsome := runCalls_results_isSome fetch hfetch ks ⟨[], 0⟩
  refine ⟨?_, hres, ?_, ?_⟩
  · rw [hcount]
    simp [cacheFind]
  · intro k hk
    have hmem : cacheFind (runCalls fetch ks ⟨[], 0⟩).2.cache k ∈
        (runCalls fetch ks ⟨[], 0⟩).1 := by
      rw [hres]
      exact List.mem_map_of_mem _ hk
    exact hsome _ hmem
  · intro i j hi hj hij
    rw [hres, List.getElem?_map, List.getElem?_map,
      List.getElem?_eq_getElem hi, List.getElem?_eq_getElem hj, hij]

/-- A concrete direct-URL key for the cache examples. -/
def urlKeyU : AddonKey := .url ⟨"u"⟩

/-- A concrete versioned-repo key for the cache examples. -/
def githubKeyG : AddonKey := .github ⟨"org/name", "v1", "a-$VERSION.7z"⟩

/-- Witness for C4 (amended) at a concrete session: three calls, two
distinct keys, an always-succeeding collaborator. -/
theorem downloadCache_at_most_once_per_key_witness :
    (runCalls (fun n => some n) [urlKeyU, githubKeyG, urlKeyU] ⟨[], 0⟩).2.fetches =
      ([urlKeyU, githubKeyG, urlKeyU].toFinset).card ∧
    (runCalls (fun n => some n) [urlKeyU, githubKeyG, urlKeyU] ⟨[], 0⟩).1 =
      [urlKeyU, githubKeyG, urlKeyU].map (fun k =>
        cacheFind (runCalls (fun n => some n)
          [urlKeyU, githubKeyG, urlKeyU] ⟨[], 0⟩).2.cache k) ∧
    (∀ k ∈ [urlKeyU, githubKeyG, urlKeyU],
      (cacheFind (runCalls (fun n => some n)
        [urlKeyU, githubKeyG, urlKeyU] ⟨[], 0⟩).2.cache k).isSome) ∧
    (∀ i j (hi : i < ([urlKeyU, githubKeyG, urlKeyU] : List AddonKey).length)
        (hj : j < ([urlKeyU, githubKeyG, urlKeyU] : List AddonKey).length),
      ([urlKeyU, githubKeyG, urlKeyU] : List AddonKey)[i] =
        ([urlKeyU, githubKeyG, urlKeyU] : List AddonKey)[j] →
      (runCalls (fun n => some n) [urlKeyU, githubKeyG, urlKeyU] ⟨[], 0⟩).1[i]? =
        (runCalls (fun n => some n) [urlKeyU, githubKeyG, urlKeyU] ⟨[], 0⟩).1[j]?) :=
  downloadCache_at_most_once_per_key (fun n => some n) (fun _ => rfl)
    [urlKeyU, githubKeyG, urlKeyU]

/-- Counterexample for C4 as stated: if the first fetch-and-unpack for a
key fails (`?` propagates the error before anything is stored), a second
call for the structurally same key invokes the collaborator again — two
invocations for one distinct key, and the first call returned no stored
directory. -/
theorem downloadCache_refetch_after_failure_cex :
    (runCalls (fun n => if n = 0 then none else some n)
        [urlKeyU, urlKeyU] ⟨[], 0⟩).2.fetches = 2 ∧
    ([urlKeyU, urlKeyU] : List AddonKey).toFinset.card = 1 ∧
    (runCalls (fun n => if n = 0 then none else some n)
        [urlKeyU, urlKeyU] ⟨[], 0⟩).1 = [none, some 1] := by
  decide

/-- Model of `Addons::find_addons`: among the walked entries of the
unpacked tree, keep those whose final component is literally
`"gamedata"` (the content-marker name) and collect their parents,
deduplicated (`HashSet`). -/
def Addons.find_addons (folders : List FPath) : List FPath :=
  ((folders.filter (fun p => p.getLast? == some "gamedata")).map
    (fun p => p.dropLast)).dedup

/-- Model of the candidate-selection core of `Addons::install` (the
computation of `dir_name`): the `addon_folder` override, when set, is
looked up among the candidates by final path component via
`.and_then(find ...)`; `.or_else(|| addon_folders.get(dl_dir))` then
falls back — whether or not the override was set — to the unpacked root
itself when it is a candidate; `none` models the
`Can't find addon folder` error. -/
def Addons.install_dir_name (addon_folder : Option String) (walked : List FPath)
    (dl_dir : FPath) : Option FPath :=
  let addon_folders := Addons.find_addons walked
  match addon_folder.bind
      (fun s => addon_folders.find? (fun p => p.getLast? == some s)) with
  | some p => some p
  | none => if dl_dir ∈ addon_folders then some dl_dir else none

/-- C6 (amended): the candidates are exactly the parents of walked
entries named by the content marker `"gamedata"`; selection picks the
candidate whose final component equals `addon_folder` when that override
is set and such a candidate exists, and otherwise — including when the
override is set but unmatched — falls back to the unpacked root if the
root is itself a candidate, failing only when neither applies. -/
theorem addon_locator_candidates_and_selection
    (addon_folder : Option String) (walked : List FPath) (dl_dir : FPath) :
    (∀ p, p ∈ Addons.find_addons walked ↔
      ∃ q ∈ walked, q.getLast? = some "gamedata" ∧ p = q.dropLast) ∧
    Addons.install_dir_name addon_folder walked dl_dir =
      (match addon_folder.bind
          (fun s => (Addons.find_addons walked).find?
            (fun p => p.getLast? == some s)) with
       | some p => some p
       | none => if dl_dir ∈ Addons.find_addons walked then some dl_dir
                 else none) := by
  refine ⟨?_, rfl⟩
  intro p
  simp only [Addons.find_addons, List.mem_dedup, List.mem_map, List.mem_filter,
    beq_iff_eq]
  constructor
  · rintro ⟨q, ⟨hq, hlast⟩, hdrop⟩
    exact ⟨q, hq, hlast, hdrop.symm⟩
  · rintro ⟨q, hq, hlast, hdrop⟩
    exact ⟨q, ⟨hq, hlast⟩, hdrop.symm⟩

/-- Counterexample for C6 as stated: with the unpacked tree
`dl/gamedata`, the only candidate is the root `dl`; the override
`addon_subfolder = "nope"` matches no candidate, so by the claim the
locator should fail with `AmbiguousOrMissingAddonFolder` — but the code's
`.or_else` fallback still applies and it returns the root. -/
theorem addon_locator_unmatched_override_cex :
    Addons.find_addons [["dl"], ["dl", "gamedata"]] = [["dl"]] ∧
    (∀ p ∈ Addons.find_addons [["dl"], ["dl", "gamedata"]],
      ¬(p.getLast? = some "nope")) ∧
    Addons.install_dir_name (some "nope") [["dl"], ["dl", "gamedata"]] ["dl"] =
      some ["dl"] := by
  decide
